import Mathlib

/-!
# Verification of the gobyexample snippets

Shallow embedding of the helper functions and loops of
`examples/recursion`, `examples/generics`, `examples/pointers` and
`examples/strings-and-runes`, with the properties stated about them.

Conventions of the embedding:
* Go `int` is the 64-bit signed integer: values are `Int`, every arithmetic
  result is passed through `wrap64`.
* Recursive functions and loops take a `fuel : Nat` argument bounding the
  recursion depth / iteration count; `none` means the fuel ran out.
-/

namespace GoByExample

/-! ## Machine integers -/

/-- Two's-complement wrap of a mathematical integer into the range of a Go `int`
(64 bits): the unique value in `[-2^63, 2^63)` congruent to `x` modulo `2^64`. -/
def wrap64 (x : Int) : Int :=
  (x + 9223372036854775808) % 18446744073709551616 - 9223372036854775808

/-! ## examples/recursion/recursion.go -/

/-- Embedding of `func fact(n int) int`:
`if n == 0 { return 1 }; return n * fact(n-1)`. -/
def fact : Nat → Int → Option Int
  | 0, _ => none
  | fuel + 1, n =>
    if n = 0 then some 1
    else (fact fuel (wrap64 (n - 1))).map (fun r => wrap64 (n * r))

/-- Embedding of the closure `fib = func(n int) int`:
`if n < 2 { return n }; return fib(n-1) + fib(n-2)`. -/
def fib : Nat → Int → Option Int
  | 0, _ => none
  | fuel + 1, n =>
    if n < 2 then some n
    else do
      let a ← fib fuel (wrap64 (n - 1))
      let b ← fib fuel (wrap64 (n - 2))
      pure (wrap64 (a + b))

/-! ## examples/generics/generics.go: `MapKeys` -/

/-- A Go `map[K]V`: finitely many entries, no key occurring twice. -/
structure GoMap (K V : Type) where
  entries : List (K × V)
  nodupKeys : (entries.map Prod.fst).Nodup

/-- The built-in `len(m)` for a map. -/
def GoMap.len {K V : Type} (m : GoMap K V) : Nat :=
  m.entries.length

/-- The keys of a map. -/
def GoMap.keys {K V : Type} (m : GoMap K V) : List K :=
  m.entries.map Prod.fst

/-- The sequences in which `for k := range m` may visit the entries of `m`: the
order is unspecified, each entry is visited exactly once. -/
def GoMap.RangeOrder {K V : Type} (m : GoMap K V) (order : List (K × V)) : Prop :=
  order.Perm m.entries

/-- Embedding of `func MapKeys[K comparable, V any](m map[K]V) []K`:
`r := make([]K, 0, len(m)); for k := range m { r = append(r, k) }; return r`,
where `order` is the sequence in which `range m` visits the entries. The state
threaded through the loop is the map together with the slice `r`; the result is
the final map and the returned slice. The capacity of `r` is not represented. -/
def MapKeys {K V : Type} (m : GoMap K V) (order : List (K × V)) : GoMap K V × List K :=
  order.foldl (fun st e => (st.1, st.2 ++ [e.1])) (m, [])

/-- The map `map[int]string{1: "2", 2: "4", 4: "8"}` of `main`. -/
def exampleMap : GoMap Int String where
  entries := [(1, "2"), (2, "4"), (4, "8")]
  nodupKeys := by decide

/-! ## examples/generics/generics.go: `List[T]` -/

/-- Embedding of `type element[T any] struct { next *element[T]; val T }`.
A pointer to an element is `none` (`nil`) or `some a`, the address `a` of an
element of the heap. -/
structure element (T : Type) where
  next : Option Nat
  val : T

/-- Embedding of `type List[T any] struct { head, tail *element[T] }` (named
`LinkedList` here, `List` being the type of Lean lists). -/
structure LinkedList where
  head : Option Nat
  tail : Option Nat
  deriving DecidableEq

/-- Program state seen by the methods of `List[T]`: the allocated elements (the
address of an element is its index in `heap`) and the receiver `*lst`. -/
structure ListState (T : Type) where
  heap : List (element T)
  lst : LinkedList

/-- Embedding of `func (lst *List[T]) Push(v T)`. The composite literal
`&element[T]{val: v}` allocates a new element at the next free address. `none`
stands for a dereference of a pointer to no element. -/
def Push {T : Type} (v : T) (s : ListState T) : Option (ListState T) :=
  match s.lst.tail with
  | none =>
    -- lst.head = &element[T]{val: v}
    let a := s.heap.length
    let heap := s.heap ++ [{ next := none, val := v }]
    let lst : LinkedList := { s.lst with head := some a }
    -- lst.tail = lst.head
    some { heap := heap, lst := { lst with tail := lst.head } }
  | some t =>
    -- lst.tail.next = &element[T]{val: v}
    let a := s.heap.length
    let heap := s.heap ++ [{ next := none, val := v }]
    match heap[t]? with
    | none => none
    | some c =>
      let heap := heap.set t { c with next := some a }
      -- lst.tail = lst.tail.next
      match heap[t]? with
      | none => none
      | some c => some { heap := heap, lst := { s.lst with tail := c.next } }

/-- The loop `for e := lst.head; e != nil; e = e.next { elems = append(elems, e.val) }`
of `GetAll`, from the current `e` and `elems`, running at most `fuel` checks of
the loop condition. -/
def GetAll.loop {T : Type} (heap : List (element T)) :
    Nat → Option Nat → List T → Option (List T)
  | 0, _, _ => none
  | _ + 1, none, elems => some elems
  | fuel + 1, some a, elems =>
    match heap[a]? with
    | none => none
    | some c => GetAll.loop heap fuel c.next (elems ++ [c.val])

/-- Embedding of `func (lst *List[T]) GetAll() []T`. The slice `elems` starts as
the `nil` slice, which like the empty slice is the Lean list `[]`. -/
def GetAll {T : Type} (fuel : Nat) (s : ListState T) : Option (List T) :=
  GetAll.loop s.heap fuel s.lst.head []

/-- The calls `Push(v1)`, ..., `Push(vn)` in that order. -/
def pushAll {T : Type} (vs : List T) (s : ListState T) : Option (ListState T) :=
  vs.foldlM (fun st v => Push v st) s

/-- The state after `lst := List[T]{}`, with `heap` the elements that exist
already. -/
def emptyList {T : Type} (heap : List (element T)) : ListState T :=
  { heap := heap, lst := { head := none, tail := none } }

/-- Embedding of `lst := List[int]{}; lst.Push(10); lst.Push(13); lst.Push(23);
lst.GetAll()` of `main`. -/
def genericsMainList (fuel : Nat) : Option (List Int) := do
  let s := emptyList []
  let s ← Push 10 s
  let s ← Push 13 s
  let s ← Push 23 s
  GetAll fuel s

/-- The shape of the state after pushing `vs` onto an empty list whose first
element was allocated at address `b`. -/
structure Pushed {T : Type} (b : Nat) (vs : List T) (s : ListState T) : Prop where
  size : s.heap.length = b + vs.length
  cell : ∀ i v, vs[i]? = some v →
    s.heap[b + i]? = some { next := if i + 1 < vs.length then some (b + i + 1) else none, val := v }
  head : s.lst.head = if vs.length = 0 then none else some b
  tail : s.lst.tail = if vs.length = 0 then none else some (b + vs.length - 1)

/-! ## examples/pointers/pointers.go -/

/-- One line written by `fmt.Println(label, x)`: either an `int` value or a
pointer (the address of an `int` variable). -/
inductive Line where
  | int (label : String) (v : Int)
  | ptr (label : String) (addr : Nat)
  deriving DecidableEq

/-- Program state for the pointers example: the `int` variables that currently
exist (a variable's address is its index in `mem`) and the lines printed so far. -/
structure Machine where
  mem : List Int
  out : List Line
  deriving DecidableEq

/-- A value of type `*int`: `none` is `nil`, `some a` points at the variable with
address `a`. -/
abbrev Ptr := Option Nat

/-- Creation of a new `int` variable initialised with `v` (a declaration, or the
binding of a by-value parameter): returns its address `&x` and the new state. -/
def Machine.alloc (m : Machine) (v : Int) : Nat × Machine :=
  (m.mem.length, { m with mem := m.mem ++ [v] })

/-- Read of the variable at address `a`; `none` if no such variable exists. -/
def Machine.load (m : Machine) (a : Nat) : Option Int :=
  m.mem[a]?

/-- Assignment `*a = v`; `none` if no variable lives at address `a`. -/
def Machine.store (m : Machine) (a : Nat) (v : Int) : Option Machine :=
  if a < m.mem.length then some { m with mem := m.mem.set a v } else none

/-- Effect of `fmt.Println(label, v)` for an `int` value. -/
def Machine.println (m : Machine) (label : String) (v : Int) : Machine :=
  { m with out := m.out ++ [Line.int label v] }

/-- End of a call: the callee's parameter variable (the most recently created
variable) ceases to exist. -/
def Machine.release (m : Machine) : Machine :=
  { m with mem := m.mem.dropLast }

/-- Embedding of `func zeroval(ival int)`: the argument is copied into the fresh
parameter variable `ival`, then `ival = 0; fmt.Println("ival:", ival)`. -/
def zeroval (arg : Int) (m : Machine) : Option Machine := do
  let (ival, m) := m.alloc arg
  let m ← m.store ival 0
  let v ← m.load ival
  let m := m.println "ival:" v
  pure m.release

/-- Embedding of `func zeroptr(iptr *int)`: `*iptr = 0`. Dereferencing `nil`
panics, represented by `none`. -/
def zeroptr (iptr : Ptr) (m : Machine) : Option Machine :=
  match iptr with
  | none => none
  | some a => m.store a 0

/-- Embedding of `main` of the pointers example, started in state `m`. -/
def pointersMain (m : Machine) : Option Machine := do
  let (i, m) := m.alloc 1
  let v ← m.load i
  let m := m.println "initial:" v
  let v ← m.load i
  let m ← zeroval v m
  let v ← m.load i
  let m := m.println "zeroval:" v
  let m ← zeroptr (some i) m
  let v ← m.load i
  let m := m.println "zeroptr:" v
  pure { m with out := m.out ++ [Line.ptr "pointer:" i] }

/-! ## examples/strings-and-runes/strings-and-runes.go

A Go string is a sequence of bytes: a `List Nat` whose members are below 256. A
`rune` is an `int32`, an `Int` here. The two loops of `main` rest on two decoders
of the Go distribution, which the example calls but does not define: the
`range` clause over a string is compiled to a loop around `runtime.decoderune`,
and the second loop calls `unicode/utf8.DecodeRuneInString`. Both are embedded
from their Go definitions. -/

/-- A well-formed Go string: every member is a byte. -/
def IsBytes (s : List Nat) : Prop :=
  ∀ b ∈ s, b < 256

instance (s : List Nat) : Decidable (IsBytes s) := by
  unfold IsBytes; infer_instance

/-- The byte `s[i]`; every use is under a guard that has `i < len(s)`. -/
def byteAt (s : List Nat) (i : Nat) : Nat :=
  s.getD i 0

/-- Wrap of a mathematical integer into the range of an `int32`. -/
def wrap32 (x : Int) : Int :=
  (x + 2147483648) % 4294967296 - 2147483648

namespace runtime

def runeError : Int := 0xFFFD
def runeSelf : Int := 0x80
def maxRune : Int := 0x10FFFF
def surrogateMin : Int := 0xD800
def surrogateMax : Int := 0xDFFF
def t2 : Nat := 0xC0
def t3 : Nat := 0xE0
def t4 : Nat := 0xF0
def t5 : Nat := 0xF8
def maskx : Nat := 0x3F
def mask2 : Nat := 0x1F
def mask3 : Nat := 0x0F
def mask4 : Nat := 0x07
def rune1Max : Int := 0x7F
def rune2Max : Int := 0x7FF
def rune3Max : Int := 0xFFFF
def locb : Nat := 0x80
def hicb : Nat := 0xBF

/-- Embedding of `func decoderune(s string, k int) (r rune, pos int)` of the Go
runtime: the rune at the start of `s[k:]` and the index after it, or
`(runeError, k + 1)` when the bytes there are not a valid encoding. -/
def decoderune (s : List Nat) (k : Nat) : Int × Nat :=
  if k ≥ s.length then (runeError, k + 1)
  else
    let s := s.drop k
    if t2 ≤ byteAt s 0 ∧ byteAt s 0 < t3 then
      -- 0080-07FF two byte sequence
      if s.length > 1 ∧ (locb ≤ byteAt s 1 ∧ byteAt s 1 ≤ hicb) then
        let r : Int := Int.lor (((byteAt s 0 &&& mask2 : Nat) : Int) <<< (6 : Int))
          ((byteAt s 1 &&& maskx : Nat) : Int)
        if rune1Max < r then (r, k + 2) else (runeError, k + 1)
      else (runeError, k + 1)
    else if t3 ≤ byteAt s 0 ∧ byteAt s 0 < t4 then
      -- 0800-FFFF three byte sequence
      if s.length > 2 ∧ (locb ≤ byteAt s 1 ∧ byteAt s 1 ≤ hicb)
          ∧ (locb ≤ byteAt s 2 ∧ byteAt s 2 ≤ hicb) then
        let r : Int := Int.lor (Int.lor (((byteAt s 0 &&& mask3 : Nat) : Int) <<< (12 : Int))
          (((byteAt s 1 &&& maskx : Nat) : Int) <<< (6 : Int)))
          ((byteAt s 2 &&& maskx : Nat) : Int)
        if rune2Max < r ∧ ¬ (surrogateMin ≤ r ∧ r ≤ surrogateMax) then (r, k + 3)
        else (runeError, k + 1)
      else (runeError, k + 1)
    else if t4 ≤ byteAt s 0 ∧ byteAt s 0 < t5 then
      -- 10000-1FFFFF four byte sequence
      if s.length > 3 ∧ (locb ≤ byteAt s 1 ∧ byteAt s 1 ≤ hicb)
          ∧ (locb ≤ byteAt s 2 ∧ byteAt s 2 ≤ hicb)
          ∧ (locb ≤ byteAt s 3 ∧ byteAt s 3 ≤ hicb) then
        let r : Int := Int.lor (Int.lor (Int.lor
          (((byteAt s 0 &&& mask4 : Nat) : Int) <<< (18 : Int))
          (((byteAt s 1 &&& maskx : Nat) : Int) <<< (12 : Int)))
          (((byteAt s 2 &&& maskx : Nat) : Int) <<< (6 : Int)))
          ((byteAt s 3 &&& maskx : Nat) : Int)
        if rune3Max < r ∧ r ≤ maxRune then (r, k + 4) else (runeError, k + 1)
      else (runeError, k + 1)
    else (runeError, k + 1)

end runtime

namespace utf8

def RuneError : Int := 0xFFFD
def maskx : Nat := 0x3F
def mask2 : Nat := 0x1F
def mask3 : Nat := 0x0F
def mask4 : Nat := 0x07
def locb : Nat := 0x80
def hicb : Nat := 0xBF
/-- invalid: size 1 -/
def xx : Nat := 0xF1
/-- ASCII: size 1 (`as` in the Go source) -/
def as_ : Nat := 0xF0
/-- accept 0, size 2 -/
def s1 : Nat := 0x02
/-- accept 1, size 3 -/
def s2 : Nat := 0x13
/-- accept 0, size 3 -/
def s3 : Nat := 0x03
/-- accept 2, size 3 -/
def s4 : Nat := 0x23
/-- accept 3, size 4 -/
def s5 : Nat := 0x34
/-- accept 0, size 4 -/
def s6 : Nat := 0x04
/-- accept 4, size 4 -/
def s7 : Nat := 0x44

/-- The table `first`: information about the first byte of a UTF-8 sequence. -/
def first : List Nat :=
  List.replicate 0x80 as_            -- 0x00-0x7F
  ++ List.replicate 0x40 xx          -- 0x80-0xBF
  ++ [xx, xx] ++ List.replicate 14 s1  -- 0xC0-0xCF
  ++ List.replicate 16 s1            -- 0xD0-0xDF
  ++ [s2, s3, s3, s3, s3, s3, s3, s3, s3, s3, s3, s3, s3, s4, s3, s3]  -- 0xE0-0xEF
  ++ [s5, s6, s6, s6, s7, xx, xx, xx, xx, xx, xx, xx, xx, xx, xx, xx]  -- 0xF0-0xFF

/-- Embedding of `type acceptRange struct { lo, hi uint8 }`. -/
structure acceptRange where
  lo : Nat
  hi : Nat

/-- The table `acceptRanges` (16 entries, those not listed are zero). -/
def acceptRanges : List acceptRange :=
  [⟨locb, hicb⟩, ⟨0xA0, hicb⟩, ⟨locb, 0x9F⟩, ⟨0x90, hicb⟩, ⟨locb, 0x8F⟩]
  ++ List.replicate 11 ⟨0, 0⟩

/-- Embedding of `func DecodeRuneInString(s string) (rune, int)` of package
`unicode/utf8`: the first rune of `s` and its width in bytes; `(RuneError, 0)`
for the empty string and `(RuneError, 1)` for an invalid encoding. -/
def DecodeRuneInString (s : List Nat) : Int × Nat :=
  let n := s.length
  if n < 1 then (RuneError, 0)
  else
    let s0 := byteAt s 0
    let x := first.getD s0 0
    if x ≥ as_ then
      -- mask := rune(x) << 31 >> 31
      let mask : Int := wrap32 ((x : Int) * 2147483648) / 2147483648
      (Int.lor (Int.ldiff (s0 : Int) mask) (Int.land RuneError mask), 1)
    else
      let sz := x &&& 7
      let accept := acceptRanges.getD (x >>> 4) ⟨0, 0⟩
      if n < sz then (RuneError, 1)
      else
        let s1 := byteAt s 1
        if s1 < accept.lo ∨ accept.hi < s1 then (RuneError, 1)
        else if sz ≤ 2 then
          (Int.lor (((s0 &&& mask2 : Nat) : Int) <<< (6 : Int)) ((s1 &&& maskx : Nat) : Int), 2)
        else
          let s2 := byteAt s 2
          if s2 < locb ∨ hicb < s2 then (RuneError, 1)
          else if sz ≤ 3 then
            (Int.lor (Int.lor (((s0 &&& mask3 : Nat) : Int) <<< (12 : Int))
              (((s1 &&& maskx : Nat) : Int) <<< (6 : Int))) ((s2 &&& maskx : Nat) : Int), 3)
          else
            let s3 := byteAt s 3
            if s3 < locb ∨ hicb < s3 then (RuneError, 1)
            else
              (Int.lor (Int.lor (Int.lor (((s0 &&& mask4 : Nat) : Int) <<< (18 : Int))
                (((s1 &&& maskx : Nat) : Int) <<< (12 : Int)))
                (((s2 &&& maskx : Nat) : Int) <<< (6 : Int))) ((s3 &&& maskx : Nat) : Int), 4)

end utf8

/-- The loop `for idx, runeValue := range s { fmt.Printf("%#U starts at %d\n", runeValue, idx) }`,
as the compiler lowers a `range` over a string:
`for hv1 := 0; hv1 < len(s); { hv1t := hv1; hv2 := rune(s[hv1]); if hv2 < RuneSelf
{ hv1++ } else { hv2, hv1 = decoderune(s, hv1) }; idx, runeValue = hv1t, hv2; body }`.
`out` collects the printed pairs (rune, starting offset). -/
def rangeLoop (s : List Nat) : Nat → Nat → List (Int × Nat) → Option (List (Int × Nat))
  | 0, _, _ => none
  | fuel + 1, hv1, out =>
    if hv1 < s.length then
      let hv1t := hv1
      let hv2 : Int := (byteAt s hv1 : Int)
      let next : Int × Nat :=
        if hv2 < runtime.runeSelf then (hv2, hv1 + 1) else runtime.decoderune s hv1
      rangeLoop s fuel next.2 (out ++ [(next.1, hv1t)])
    else some out

/-- The loop `for i, w := 0, 0; i < len(s); i += w { runeValue, width :=
utf8.DecodeRuneInString(s[i:]); fmt.Printf("%#U starts at %d\n", runeValue, i);
w = width; examineRune(runeValue) }`; `out` collects the printed pairs (rune,
starting offset). -/
def decodeLoop (s : List Nat) : Nat → Nat → List (Int × Nat) → Option (List (Int × Nat))
  | 0, _, _ => none
  | fuel + 1, i, out =>
    if i < s.length then
      let (runeValue, width) := utf8.DecodeRuneInString (s.drop i)
      let w := width
      decodeLoop s fuel (i + w) (out ++ [(runeValue, i)])
    else some out

/-- The bytes of the constant `s = "สวัสดี"` of `main`. -/
def thai : List Nat :=
  [0xE0, 0xB8, 0xAA, 0xE0, 0xB8, 0xA7, 0xE0, 0xB8, 0xB1,
   0xE0, 0xB8, 0xAA, 0xE0, 0xB8, 0x94, 0xE0, 0xB8, 0xB5]

/-! ### Lemmas on machine integers -/

theorem wrap64_of_range (x : Int) (hlo : -9223372036854775808 ≤ x)
    (hhi : x < 9223372036854775808) : wrap64 x = x := by
  unfold wrap64
  omega

theorem factorial_lt_of_le_twenty (n : Nat) (hn : n ≤ 20) :
    Nat.factorial n < 9223372036854775808 := by
  have h := Nat.factorial_le hn
  have h20 : Nat.factorial 20 = 2432902008176640000 := by decide
  omega

theorem fib_lt_of_le (n : Nat) (hn : n ≤ 92) : Nat.fib n < 9223372036854775808 := by
  have h := Nat.fib_mono hn
  have h92 : Nat.fib 92 = 7540113804746346429 := by norm_num
  omega

/-- The bound 20 is sharp: `21!` exceeds the largest `int`. -/
theorem factorial_21_exceeds_int : 9223372036854775808 ≤ Nat.factorial 21 := by decide

set_option maxRecDepth 10000 in
/-- Beyond the bound the product wraps around: `fact(21)` is negative. -/
theorem fact_wraps_at_21 : fact 22 21 = some (-4249290049419214848) := by decide

/-- The bound 92 is sharp: the 93rd Fibonacci number exceeds the largest `int`. -/
theorem natFib_93_exceeds_int : 9223372036854775808 ≤ Nat.fib 93 := by norm_num

/-! ### Claims on `fact` and `fib` -/

/-- C1: for every integer `n` with `0 ≤ n ≤ 20`, `fact(n)` returns exactly `n!`
(with `fact(0) = 1`), whenever the recursion is given more than `n` levels of
depth; instantiated at `n = 7` this is the printed value `5040`. -/
theorem fact_eq_factorial (n fuel : Nat) (hn : n ≤ 20) (hf : n < fuel) :
    fact fuel (n : Int) = some ((Nat.factorial n : Nat) : Int) := by
  induction fuel generalizing n with
  | zero => omega
  | succ fuel ih =>
    cases n with
    | zero => simp [fact]
    | succ k =>
      have hk : fact fuel (k : Int) = some ((Nat.factorial k : Nat) : Int) :=
        ih k (by omega) (by omega)
      have hne : ((k + 1 : Nat) : Int) ≠ 0 := by omega
      have hpred : wrap64 (((k + 1 : Nat) : Int) - 1) = (k : Int) := by
        rw [wrap64_of_range] <;> omega
      have hbound := factorial_lt_of_le_twenty (k + 1) hn
      have hprod : ((k + 1 : Nat) : Int) * ((Nat.factorial k : Nat) : Int)
          = ((Nat.factorial (k + 1) : Nat) : Int) := by
        rw [Nat.factorial_succ]; push_cast; ring
      rw [fact, if_neg hne, hpred, hk, Option.map_some', hprod, wrap64_of_range] <;> omega

/-- Instance of C1 at the argument of the example: `fact(7) = 5040`. -/
theorem fact_eq_factorial_witness :
    7 ≤ 20 ∧ 7 < 8 ∧ fact 8 ((7 : Nat) : Int) = some ((5040 : Nat) : Int) :=
  ⟨by decide, by decide, fact_eq_factorial 7 8 (by decide) (by decide)⟩

theorem fib_eq_natFib (fuel n : Nat) (hn : n ≤ 92) (hf : n < fuel) :
    fib fuel (n : Int) = some ((Nat.fib n : Nat) : Int) := by
  induction fuel generalizing n with
  | zero => omega
  | succ fuel ih =>
    rcases Nat.lt_or_ge n 2 with h2 | h2
    · have hlt : ((n : Nat) : Int) < 2 := by omega
      rw [fib, if_pos hlt]
      interval_cases n <;> simp
    · obtain ⟨k, rfl⟩ : ∃ k, n = k + 2 := ⟨n - 2, by omega⟩
      have hge : ¬ (((k + 2 : Nat) : Int) < 2) := by omega
      have h1 : wrap64 (((k + 2 : Nat) : Int) - 1) = ((k + 1 : Nat) : Int) := by
        rw [wrap64_of_range] <;> omega
      have h2 : wrap64 (((k + 2 : Nat) : Int) - 2) = (k : Int) := by
        rw [wrap64_of_range] <;> omega
      have hb := fib_lt_of_le (k + 2) hn
      have hrec : Nat.fib (k + 2) = Nat.fib k + Nat.fib (k + 1) := Nat.fib_add_two
      have hsum : wrap64 (((Nat.fib (k + 1) : Nat) : Int) + ((Nat.fib k : Nat) : Int))
          = ((Nat.fib (k + 2) : Nat) : Int) := by
        rw [wrap64_of_range] <;> omega
      rw [fib, if_neg hge, h1, h2, ih (k + 1) (by omega) (by omega),
        ih k (by omega) (by omega)]
      simp only [Option.bind_eq_bind, Option.some_bind, Option.pure_def, hsum]

/-- C6: the closure `fib` computes the Fibonacci sequence. Given more than `n`
levels of recursion depth and `n ≤ 92` (the largest index whose Fibonacci number
fits a 64-bit `int`): `fib(n)` returns the `n`-th Fibonacci number, `fib(0) = 0`,
`fib(1) = 1`, for `n ≥ 2` the calls `fib(n-1)` and `fib(n-2)` return values whose
sum is the value of `fib(n)`, and `fib(7) = 13` as printed by the example. -/
theorem fib_computes_fibonacci (n fuel : Nat) (hn : n ≤ 92) (hf : n < fuel) :
    fib fuel (n : Int) = some ((Nat.fib n : Nat) : Int)
    ∧ fib fuel 0 = some 0
    ∧ (1 < fuel → fib fuel 1 = some 1)
    ∧ (2 ≤ n → ∃ a b : Int, fib fuel ((n : Int) - 1) = some a
        ∧ fib fuel ((n : Int) - 2) = some b ∧ fib fuel (n : Int) = some (a + b))
    ∧ (7 < fuel → fib fuel 7 = some 13) := by
  refine ⟨fib_eq_natFib fuel n hn hf, ?_, ?_, ?_, ?_⟩
  · simpa using fib_eq_natFib fuel 0 (by omega) (by omega)
  · intro h1
    simpa using fib_eq_natFib fuel 1 (by omega) h1
  · intro h2
    obtain ⟨k, rfl⟩ : ∃ k, n = k + 2 := ⟨n - 2, by omega⟩
    refine ⟨((Nat.fib (k + 1) : Nat) : Int), ((Nat.fib k : Nat) : Int), ?_, ?_, ?_⟩
    · have e : (((k + 2 : Nat) : Int) - 1) = ((k + 1 : Nat) : Int) := by omega
      rw [e]; exact fib_eq_natFib fuel (k + 1) (by omega) (by omega)
    · have e : (((k + 2 : Nat) : Int) - 2) = ((k : Nat) : Int) := by omega
      rw [e]; exact fib_eq_natFib fuel k (by omega) (by omega)
    · rw [fib_eq_natFib fuel (k + 2) hn hf]
      have hrec : Nat.fib (k + 2) = Nat.fib k + Nat.fib (k + 1) := Nat.fib_add_two
      congr 1; omega
  · intro h7
    have h := fib_eq_natFib fuel 7 (by omega) h7
    have e : Nat.fib 7 = 13 := by norm_num
    rw [e] at h
    simpa using h

/-- Instance of C6 at the argument of the example, `fib(7)`. -/
theorem fib_computes_fibonacci_witness :
    7 ≤ 92 ∧ 7 < 8 ∧ fib 8 ((7 : Nat) : Int) = some ((Nat.fib 7 : Nat) : Int)
      ∧ fib 8 7 = some 13 :=
  ⟨by decide, by decide, (fib_computes_fibonacci 7 8 (by decide) (by decide)).1,
    (fib_computes_fibonacci 7 8 (by decide) (by decide)).2.2.2.2 (by decide)⟩

/-! ### Claims on `zeroval` and `zeroptr` -/

theorem zeroval_eq (arg : Int) (m : Machine) :
    zeroval arg m = some { mem := m.mem, out := m.out ++ [Line.int "ival:" 0] } := by
  simp [zeroval, Machine.alloc, Machine.store, Machine.load, Machine.println,
    Machine.release, List.dropLast_concat]

theorem zeroptr_eq (a : Nat) (m : Machine) (h : a < m.mem.length) :
    zeroptr (some a) m = some { mem := m.mem.set a 0, out := m.out } := by
  simp [zeroptr, Machine.store, h]

theorem pointersMain_eq (m : Machine) :
    pointersMain m = some
      { mem := m.mem ++ [0]
        out := m.out ++ [Line.int "initial:" 1, Line.int "ival:" 0,
          Line.int "zeroval:" 1, Line.int "zeroptr:" 0, Line.ptr "pointer:" m.mem.length] } := by
  simp [pointersMain, zeroval_eq, Machine.alloc, Machine.store, Machine.load,
    Machine.println, zeroptr]

/-- C5: for every integer `i` held by the caller's variable (at address `a`):
`zeroval(i)` returns and the caller's variable still holds `i` (indeed no existing
variable changes), and `zeroptr(&i)` returns and the caller's variable then holds
`0`. The example `main` prints `initial: 1`, `ival: 0`, `zeroval: 1`,
`zeroptr: 0` and then the pointer. -/
theorem zeroval_keeps_zeroptr_clears (m : Machine) (a : Nat) (i : Int)
    (h : m.load a = some i) :
    (∃ m1, zeroval i m = some m1 ∧ m1.load a = some i ∧ m1.mem = m.mem)
    ∧ (∃ m2, zeroptr (some a) m = some m2 ∧ m2.load a = some 0)
    ∧ (pointersMain m).map Machine.out
        = some (m.out ++ [Line.int "initial:" 1, Line.int "ival:" 0,
            Line.int "zeroval:" 1, Line.int "zeroptr:" 0,
            Line.ptr "pointer:" m.mem.length]) := by
  have hlt : a < m.mem.length := by
    unfold Machine.load at h
    by_contra hnot
    rw [List.getElem?_eq_none (by omega)] at h
    exact Option.noConfusion h
  refine ⟨⟨_, zeroval_eq i m, h, rfl⟩, ⟨_, zeroptr_eq a m hlt, ?_⟩, ?_⟩
  · simp [Machine.load, hlt]
  · rw [pointersMain_eq]; rfl

/-- Instance of C5 on the state of the example: the only variable is `i`, at
address `0`, holding `1`. -/
theorem zeroval_keeps_zeroptr_clears_witness :
    (Machine.mk [1] []).load 0 = some 1
    ∧ (zeroval 1 (Machine.mk [1] [])).map Machine.mem = some [1]
    ∧ (zeroptr (some 0) (Machine.mk [1] [])).map Machine.mem = some [0] := by
  have h := zeroval_keeps_zeroptr_clears (Machine.mk [1] []) 0 1 rfl
  refine ⟨rfl, ?_, ?_⟩
  · obtain ⟨m1, h1, _, h3⟩ := h.1
    rw [h1]; exact congrArg some h3
  · decide

/-! ### Claims on `MapKeys` -/

theorem mapKeys_foldl {K V : Type} (m : GoMap K V) (order : List (K × V)) (r : List K) :
    order.foldl (fun st e => (st.1, st.2 ++ [e.1])) (m, r) = (m, r ++ order.map Prod.fst) := by
  induction order generalizing r with
  | nil => simp
  | cons e rest ih => simp [List.foldl_cons, ih]

theorem mapKeys_eq {K V : Type} (m : GoMap K V) (order : List (K × V)) :
    MapKeys m order = (m, order.map Prod.fst) := by
  simp [MapKeys, mapKeys_foldl]

/-- C3: for every map `m` and every order in which `range m` visits its entries,
`MapKeys(m)` returns a slice of length `len(m)` without duplicates in which a key
occurs if and only if it is a key of `m` (so the slice is a permutation of the
keys), and `m` is left unchanged. For the example map `{1:"2", 2:"4", 4:"8"}` the
result is a permutation of `[1, 2, 4]`. -/
theorem mapKeys_returns_keys {K V : Type} (m : GoMap K V) (order : List (K × V))
    (h : m.RangeOrder order) :
    (MapKeys m order).2.length = m.len
    ∧ (MapKeys m order).2.Nodup
    ∧ (∀ k, k ∈ (MapKeys m order).2 ↔ k ∈ m.keys)
    ∧ (MapKeys m order).2.Perm m.keys
    ∧ (MapKeys m order).1 = m
    ∧ (∀ order1, exampleMap.RangeOrder order1 → (MapKeys exampleMap order1).2.Perm [1, 2, 4]) := by
  have hp : (order.map Prod.fst).Perm m.keys := List.Perm.map Prod.fst h
  rw [mapKeys_eq]
  refine ⟨?_, ?_, ?_, hp, rfl, ?_⟩
  · simpa [GoMap.len] using h.length_eq
  · exact (List.Perm.nodup_iff hp).mpr m.nodupKeys
  · intro k
    exact hp.mem_iff
  · intro order1 h1
    rw [mapKeys_eq]
    exact List.Perm.map Prod.fst h1

/-- Instance of C3: the example map visited in the order `4, 1, 2`. -/
theorem mapKeys_returns_keys_witness :
    exampleMap.RangeOrder [(4, "8"), (1, "2"), (2, "4")]
    ∧ (MapKeys exampleMap [(4, "8"), (1, "2"), (2, "4")]).2 = [4, 1, 2]
    ∧ (MapKeys exampleMap [(4, "8"), (1, "2"), (2, "4")]).2.Perm [1, 2, 4] := by
  have hr : exampleMap.RangeOrder [(4, "8"), (1, "2"), (2, "4")] := by
    unfold GoMap.RangeOrder exampleMap
    decide
  exact ⟨hr, rfl, (mapKeys_returns_keys exampleMap _ hr).2.2.2.1⟩

/-! ### Claims on `List[T]` -/

theorem pushed_emptyList {T : Type} (heap : List (element T)) :
    Pushed heap.length ([] : List T) (emptyList heap) where
  size := rfl
  cell := by intro i v h; simp at h
  head := rfl
  tail := rfl

theorem pushed_push {T : Type} (b : Nat) (vs : List T) (s : ListState T) (v : T)
    (h : Pushed b vs s) : ∃ s1, Push v s = some s1 ∧ Pushed b (vs ++ [v]) s1 := by
  obtain ⟨hsize, hcell, hhead, htail⟩ := h
  rcases Nat.eq_zero_or_pos vs.length with h0 | hpos
  · have hnil : vs = [] := List.length_eq_zero.mp h0
    subst hnil
    simp only [List.length_nil, if_true] at hhead htail
    simp only [List.length_nil, Nat.add_zero] at hsize
    refine ⟨_, by simp only [Push, htail]; rfl, ?_⟩
    constructor
    · simp [hsize]
    · intro i w hi
      have hi0 : i = 0 := by
        by_contra hne
        rw [List.getElem?_eq_none (by simp; omega)] at hi
        exact Option.noConfusion hi
      subst hi0
      simp at hi
      subst hi
      simp [← hsize]
    · simp [hsize]
    · simp [hsize]
  · obtain ⟨w, hw⟩ : ∃ w, vs[vs.length - 1]? = some w :=
      ⟨vs[vs.length - 1], List.getElem?_eq_getElem (by omega)⟩
    have hc := hcell (vs.length - 1) w hw
    rw [if_neg (by omega)] at hc
    have htl : s.lst.tail = some (b + (vs.length - 1)) := by
      rw [htail, if_neg (by omega)]; congr 1; omega
    have hlt : b + (vs.length - 1) < s.heap.length := by omega
    have hread : (s.heap ++ [{ next := none, val := v }])[b + (vs.length - 1)]?
        = some { next := none, val := w } := by
      rw [List.getElem?_append_left hlt]; exact hc
    refine ⟨{ heap := (s.heap ++ [({ next := none, val := v } : element T)]).set
                (b + (vs.length - 1)) { next := some s.heap.length, val := w },
              lst := { head := s.lst.head, tail := some s.heap.length } }, ?_, ?_⟩
    · simp only [Push, htl, hread]
      rw [List.getElem?_set_self (by simp; omega)]
    · constructor
      · simp [hsize]; omega
      · intro i x hi
        simp only [List.length_append, List.length_singleton]
        rcases Nat.lt_trichotomy i (vs.length - 1) with hlt1 | heq | hgt
        · rw [List.getElem?_append_left (by omega)] at hi
          have := hcell i x hi
          rw [if_pos (by omega)] at this
          rw [List.getElem?_set_ne (by omega), List.getElem?_append_left (by omega),
            this, if_pos (by omega)]
        · subst heq
          rw [List.getElem?_append_left (by omega), hw] at hi
          cases hi
          rw [List.getElem?_set_self (by simp; omega), if_pos (by omega), hsize]
          congr 3; omega
        · have hi1 : i = vs.length := by
            by_contra hne
            rw [List.getElem?_eq_none (by simp; omega)] at hi
            exact Option.noConfusion hi
          subst hi1
          simp at hi
          subst hi
          rw [List.getElem?_set_ne (by omega), if_neg (by omega), ← hsize]
          simp
      · simp only [hhead, List.length_append, List.length_singleton]
        rw [if_neg (by omega), if_neg (by omega)]
      · simp only [hsize, List.length_append, List.length_singleton]
        rw [if_neg (by omega)]; congr 1

theorem pushed_pushAll {T : Type} (b : Nat) (ws vs : List T) (s : ListState T)
    (h : Pushed b vs s) : ∃ s1, pushAll ws s = some s1 ∧ Pushed b (vs ++ ws) s1 := by
  induction ws generalizing vs s with
  | nil => exact ⟨s, rfl, by simpa using h⟩
  | cons w ws ih =>
    obtain ⟨s1, h1, hp1⟩ := pushed_push b vs s w h
    obtain ⟨s2, h2, hp2⟩ := ih (vs ++ [w]) s1 hp1
    refine ⟨s2, ?_, by simpa using hp2⟩
    unfold pushAll at h2 ⊢
    rw [List.foldlM_cons, h1]
    exact h2

theorem getAll_loop_pushed {T : Type} (b : Nat) (vs : List T) (s : ListState T)
    (h : Pushed b vs s) (fuel j : Nat) (elems : List T) (hj : j ≤ vs.length)
    (hf : vs.length - j < fuel) :
    GetAll.loop s.heap fuel (if j < vs.length then some (b + j) else none) elems
      = some (elems ++ vs.drop j) := by
  induction fuel generalizing j elems with
  | zero => omega
  | succ fuel ih =>
    by_cases hlt : j < vs.length
    · have hc := h.cell j vs[j] (List.getElem?_eq_getElem hlt)
      rw [if_pos hlt, GetAll.loop, hc]
      have := ih (j + 1) (elems ++ [vs[j]]) (by omega) (by omega)
      rw [← Nat.add_assoc] at this
      show GetAll.loop s.heap fuel (if j + 1 < vs.length then some (b + j + 1) else none)
        (elems ++ [vs[j]]) = some (elems ++ vs.drop j)
      rw [this, List.drop_eq_getElem_cons hlt, List.append_assoc, List.singleton_append]
    · have hj1 : j = vs.length := by omega
      subst hj1
      rw [if_neg hlt, GetAll.loop]
      simp

theorem getAll_pushed {T : Type} (b : Nat) (vs : List T) (s : ListState T)
    (h : Pushed b vs s) (fuel : Nat) (hf : vs.length < fuel) :
    GetAll fuel s = some vs := by
  have := getAll_loop_pushed b vs s h fuel 0 [] (by omega) (by omega)
  unfold GetAll
  rw [h.head]
  by_cases h0 : vs.length = 0
  · rw [if_pos h0]
    rw [if_neg (by omega)] at this
    simpa using this
  · rw [if_neg h0]
    rw [if_pos (by omega)] at this
    simpa using this

theorem genericsMainList_eq (fuel : Nat) :
    genericsMainList fuel = (pushAll [10, 13, 23] (emptyList [])).bind (GetAll fuel) := by
  simp only [genericsMainList, pushAll, List.foldlM_cons, List.foldlM_nil, bind_assoc,
    Option.bind_eq_bind, pure_bind, Option.pure_def, Option.bind_some]
  simp only [Option.bind_assoc]

/-- C2: for every finite sequence `vs` (possibly empty), the calls `Push(v1)`, ...,
`Push(vn)` on an empty `List` all return, and `GetAll` (given more than `n` checks
of its loop condition) then returns exactly `vs`, in insertion order, `[]` for
`n = 0`; one more `Push(v)` returns and `GetAll` then returns `vs` with `v` appended
at the end. In the example, pushing 10, 13, 23 yields `[10, 13, 23]`. -/
theorem push_getAll_insertion_order {T : Type} (heap0 : List (element T)) (vs : List T)
    (v : T) (fuel : Nat) (hf : vs.length < fuel) :
    (∃ s s1, pushAll vs (emptyList heap0) = some s ∧ GetAll fuel s = some vs
      ∧ Push v s = some s1 ∧ GetAll (fuel + 1) s1 = some (vs ++ [v]))
    ∧ (3 < fuel → genericsMainList fuel = some [10, 13, 23]) := by
  constructor
  · obtain ⟨s, hs, hp⟩ := pushed_pushAll heap0.length vs [] (emptyList heap0)
      (pushed_emptyList heap0)
    rw [List.nil_append] at hp
    obtain ⟨s1, hs1, hp1⟩ := pushed_push heap0.length vs s v hp
    exact ⟨s, s1, hs, getAll_pushed _ vs s hp fuel hf, hs1,
      getAll_pushed _ (vs ++ [v]) s1 hp1 (fuel + 1) (by simp; omega)⟩
  · intro h3
    obtain ⟨s, hs, hp⟩ := pushed_pushAll 0 [(10 : Int), 13, 23] [] (emptyList [])
      (pushed_emptyList [])
    rw [genericsMainList_eq, hs]
    exact getAll_pushed _ _ s hp fuel h3

/-- Instance of C2 on the example: after `Push(10)`, `Push(13)` the list holds
`[10, 13]`, and after `Push(23)` it holds `[10, 13, 23]`. -/
theorem push_getAll_insertion_order_witness :
    [(10 : Int), 13].length < 3
    ∧ (∃ s s1, pushAll [(10 : Int), 13] (emptyList []) = some s ∧ GetAll 3 s = some [10, 13]
        ∧ Push 23 s = some s1 ∧ GetAll 4 s1 = some [10, 13, 23]) :=
  ⟨by decide, (push_getAll_insertion_order [] [(10 : Int), 13] 23 3 (by decide)).1⟩

/-! ### Lemmas on bit operations -/

theorem nat_ldiff_zero (m : Nat) : Nat.ldiff m 0 = m := by
  apply Nat.eq_of_testBit_eq
  intro i
  simp [Nat.testBit_ldiff]

theorem int_shiftLeft_natCast (m k : Nat) :
    (m : Int) <<< ((k : Nat) : Int) = ((m * 2 ^ k : Nat) : Int) := by
  rw [Int.shiftLeft_coe_nat, Nat.shiftLeft_eq]

theorem nat_mul_or_of_lt (i a b : Nat) (hb : b < 2 ^ i) : a * 2 ^ i ||| b = a * 2 ^ i + b := by
  have := Nat.mul_add_lt_is_or hb a
  rw [Nat.mul_comm] at this
  exact this.symm

/-- The rune assembled from a two-byte sequence, in arithmetic form. -/
theorem rune2_eq (a b : Nat) :
    Int.lor (((a &&& 0x1F : Nat) : Int) <<< (6 : Int)) ((b &&& 0x3F : Nat) : Int)
      = (((a % 32) * 64 + b % 64 : Nat) : Int) := by
  have h1 : a &&& 0x1F = a % 32 := Nat.and_pow_two_sub_one_eq_mod a 5
  have h2 : b &&& 0x3F = b % 64 := Nat.and_pow_two_sub_one_eq_mod b 6
  have h3 : ((a % 32 : Nat) : Int) <<< (6 : Int) = ((a % 32 * 2 ^ 6 : Nat) : Int) :=
    int_shiftLeft_natCast (a % 32) 6
  rw [h1, h2, h3]
  show ((a % 32 * 2 ^ 6 ||| b % 64 : Nat) : Int) = _
  have hb : b % 64 < 64 := Nat.mod_lt b (by decide)
  rw [nat_mul_or_of_lt 6 _ _ (by omega)]
  congr 1

/-- The rune assembled from a three-byte sequence, in arithmetic form. -/
theorem rune3_eq (a b c : Nat) :
    Int.lor (Int.lor (((a &&& 0x0F : Nat) : Int) <<< (12 : Int))
      (((b &&& 0x3F : Nat) : Int) <<< (6 : Int))) ((c &&& 0x3F : Nat) : Int)
      = (((a % 16) * 4096 + (b % 64) * 64 + c % 64 : Nat) : Int) := by
  have h1 : a &&& 0x0F = a % 16 := Nat.and_pow_two_sub_one_eq_mod a 4
  have h2 : b &&& 0x3F = b % 64 := Nat.and_pow_two_sub_one_eq_mod b 6
  have h3 : c &&& 0x3F = c % 64 := Nat.and_pow_two_sub_one_eq_mod c 6
  have h4 : ((a % 16 : Nat) : Int) <<< (12 : Int) = ((a % 16 * 2 ^ 12 : Nat) : Int) :=
    int_shiftLeft_natCast (a % 16) 12
  have h5 : ((b % 64 : Nat) : Int) <<< (6 : Int) = ((b % 64 * 2 ^ 6 : Nat) : Int) :=
    int_shiftLeft_natCast (b % 64) 6
  rw [h1, h2, h3, h4, h5]
  show (((a % 16 * 2 ^ 12 ||| b % 64 * 2 ^ 6) ||| c % 64 : Nat) : Int) = _
  have hb : b % 64 < 64 := Nat.mod_lt b (by decide)
  have hc : c % 64 < 64 := Nat.mod_lt c (by decide)
  rw [nat_mul_or_of_lt 12 _ _ (by omega)]
  have e : a % 16 * 2 ^ 12 + b % 64 * 2 ^ 6 = (a % 16 * 64 + b % 64) * 2 ^ 6 := by omega
  rw [e, nat_mul_or_of_lt 6 _ _ (by omega)]
  congr 1; omega

/-- The rune assembled from a four-byte sequence, in arithmetic form. -/
theorem rune4_eq (a b c d : Nat) :
    Int.lor (Int.lor (Int.lor (((a &&& 0x07 : Nat) : Int) <<< (18 : Int))
      (((b &&& 0x3F : Nat) : Int) <<< (12 : Int)))
      (((c &&& 0x3F : Nat) : Int) <<< (6 : Int))) ((d &&& 0x3F : Nat) : Int)
      = (((a % 8) * 262144 + (b % 64) * 4096 + (c % 64) * 64 + d % 64 : Nat) : Int) := by
  have h1 : a &&& 0x07 = a % 8 := Nat.and_pow_two_sub_one_eq_mod a 3
  have h2 : b &&& 0x3F = b % 64 := Nat.and_pow_two_sub_one_eq_mod b 6
  have h3 : c &&& 0x3F = c % 64 := Nat.and_pow_two_sub_one_eq_mod c 6
  have h4 : d &&& 0x3F = d % 64 := Nat.and_pow_two_sub_one_eq_mod d 6
  have h5 : ((a % 8 : Nat) : Int) <<< (18 : Int) = ((a % 8 * 2 ^ 18 : Nat) : Int) :=
    int_shiftLeft_natCast (a % 8) 18
  have h6 : ((b % 64 : Nat) : Int) <<< (12 : Int) = ((b % 64 * 2 ^ 12 : Nat) : Int) :=
    int_shiftLeft_natCast (b % 64) 12
  have h7 : ((c % 64 : Nat) : Int) <<< (6 : Int) = ((c % 64 * 2 ^ 6 : Nat) : Int) :=
    int_shiftLeft_natCast (c % 64) 6
  rw [h1, h2, h3, h4, h5, h6, h7]
  show ((((a % 8 * 2 ^ 18 ||| b % 64 * 2 ^ 12) ||| c % 64 * 2 ^ 6) ||| d % 64 : Nat) : Int) = _
  have hb : b % 64 < 64 := Nat.mod_lt b (by decide)
  have hc : c % 64 < 64 := Nat.mod_lt c (by decide)
  have hd : d % 64 < 64 := Nat.mod_lt d (by decide)
  rw [nat_mul_or_of_lt 18 _ _ (by omega)]
  have e1 : a % 8 * 2 ^ 18 + b % 64 * 2 ^ 12 = (a % 8 * 64 + b % 64) * 2 ^ 12 := by omega
  rw [e1, nat_mul_or_of_lt 12 _ _ (by omega)]
  have e2 : (a % 8 * 64 + b % 64) * 2 ^ 12 + c % 64 * 2 ^ 6
      = ((a % 8 * 64 + b % 64) * 64 + c % 64) * 2 ^ 6 := by omega
  rw [e2, nat_mul_or_of_lt 6 _ _ (by omega)]
  congr 1; omega

/-- The mask-and-or of `DecodeRuneInString` for an ASCII first byte (`mask = 0`). -/
theorem maskOr_ascii (b : Nat) :
    Int.lor (Int.ldiff (b : Int) 0) (Int.land utf8.RuneError 0) = (b : Int) := by
  show ((Nat.ldiff b 0 ||| (0xFFFD &&& 0) : Nat) : Int) = (b : Int)
  rw [nat_ldiff_zero]
  simp

/-- The mask-and-or of `DecodeRuneInString` for an invalid first byte (`mask = -1`). -/
theorem maskOr_invalid (b : Nat) :
    Int.lor (Int.ldiff (b : Int) (-1)) (Int.land utf8.RuneError (-1)) = utf8.RuneError := by
  show (((b &&& 0) ||| Nat.ldiff 0xFFFD 0 : Nat) : Int) = utf8.RuneError
  rw [nat_ldiff_zero]
  simp [utf8.RuneError]

theorem mask_ascii : wrap32 (((240 : Nat) : Int) * 2147483648) / 2147483648 = 0 := by decide

theorem mask_invalid : wrap32 (((241 : Nat) : Int) * 2147483648) / 2147483648 = -1 := by decide

set_option maxRecDepth 100000 in
/-- What the tables `first` and `acceptRanges` hold for each first byte. -/
theorem first_facts : ∀ b < 256,
    (b < 0x80 → utf8.first.getD b 0 = 0xF0)
    ∧ ((0x80 ≤ b ∧ b < 0xC2) ∨ 0xF4 < b → utf8.first.getD b 0 = 0xF1)
    ∧ (0xC2 ≤ b ∧ b ≤ 0xF4 →
        utf8.first.getD b 0 < 0xF0
        ∧ utf8.first.getD b 0 &&& 7 = (if b < 0xE0 then 2 else if b < 0xF0 then 3 else 4)
        ∧ (utf8.acceptRanges.getD (utf8.first.getD b 0 >>> 4) ⟨0, 0⟩).lo
            = (if b = 0xE0 then 0xA0 else if b = 0xF0 then 0x90 else 0x80)
        ∧ (utf8.acceptRanges.getD (utf8.first.getD b 0 >>> 4) ⟨0, 0⟩).hi
            = (if b = 0xED then 0x9F else if b = 0xF4 then 0x8F else 0xBF)) := by
  decide

/-! ### Claims on the two string loops -/

theorem byteAt_lt (t : List Nat) (ht : IsBytes t) (i : Nat) : byteAt t i < 256 := by
  unfold byteAt
  rw [List.getD_eq_getElem?_getD]
  by_cases hi : i < t.length
  · rw [List.getElem?_eq_getElem hi]
    exact ht _ (List.getElem_mem hi)
  · rw [List.getElem?_eq_none (by omega)]
    decide

theorem isBytes_drop (s : List Nat) (hs : IsBytes s) (k : Nat) : IsBytes (s.drop k) :=
  fun b hb => hs b (List.mem_of_mem_drop hb)

theorem byteAt_drop (s : List Nat) (k i : Nat) : byteAt (s.drop k) i = byteAt s (k + i) := by
  simp [byteAt, List.getD_eq_getElem?_getD, List.getElem?_drop]

set_option maxHeartbeats 1000000 in
/-- One iteration: on a non-empty rest `t = s[k:]`, the rune and width returned by
`DecodeRuneInString(t)` are the rune and the advance of one step of the lowered
`range` loop. -/
theorem decode_step (s : List Nat) (hs : IsBytes s) (k : Nat) (hk : k < s.length) :
    utf8.DecodeRuneInString (s.drop k)
      = ((if ((byteAt s k : Nat) : Int) < runtime.runeSelf
            then (((byteAt s k : Nat) : Int), k + 1) else runtime.decoderune s k).1,
         (if ((byteAt s k : Nat) : Int) < runtime.runeSelf
            then (((byteAt s k : Nat) : Int), k + 1) else runtime.decoderune s k).2 - k)
    ∧ k < (if ((byteAt s k : Nat) : Int) < runtime.runeSelf
            then (((byteAt s k : Nat) : Int), k + 1) else runtime.decoderune s k).2 := by
  have hb0 : byteAt s k = byteAt (s.drop k) 0 := by rw [byteAt_drop]; rfl
  have hn : (s.drop k).length = s.length - k := List.length_drop k s
  have ht := isBytes_drop s hs k
  rw [hb0]
  unfold runtime.decoderune utf8.DecodeRuneInString
  rw [if_neg (by omega : ¬ k ≥ s.length)]
  simp only []
  have h0 := byteAt_lt _ ht 0
  have h1 := byteAt_lt _ ht 1
  have h2 := byteAt_lt _ ht 2
  have h3 := byteAt_lt _ ht 3
  have hpos : 1 ≤ (s.drop k).length := by omega
  generalize byteAt (s.drop k) 0 = b0 at *
  generalize byteAt (s.drop k) 1 = b1 at *
  generalize byteAt (s.drop k) 2 = b2 at *
  generalize byteAt (s.drop k) 3 = b3 at *
  generalize (s.drop k).length = n at *
  obtain ⟨f1, f2, f3⟩ := first_facts b0 h0
  simp only [runtime.runeSelf, runtime.runeError, runtime.maxRune, runtime.surrogateMin,
    runtime.surrogateMax, runtime.t2, runtime.t3, runtime.t4, runtime.t5, runtime.maskx,
    runtime.mask2, runtime.mask3, runtime.mask4, runtime.rune1Max, runtime.rune2Max,
    runtime.rune3Max, runtime.locb, runtime.hicb, utf8.maskx, utf8.mask2, utf8.mask3,
    utf8.mask4, utf8.locb, utf8.hicb, utf8.as_, rune2_eq, rune3_eq, rune4_eq]
  have hn1 : ¬ n < 1 := by omega
  rw [if_neg hn1]
  rcases (by omega : b0 < 128 ∨ ((128 ≤ b0 ∧ b0 < 194) ∨ 244 < b0) ∨ (194 ≤ b0 ∧ b0 ≤ 244))
    with hA | hB | hC
  · have hlt : (b0 : Int) < 128 := by omega
    rw [f1 hA, mask_ascii, maskOr_ascii, if_pos (by decide), if_pos hlt]
    simp
  · have hge : ¬ (b0 : Int) < 128 := by omega
    rw [f2 hB, mask_invalid, maskOr_invalid, if_pos (by decide), if_neg hge]
    simp only [utf8.RuneError]
    split_ifs <;> simp <;> omega
  · obtain ⟨g1, g2, g3, g4⟩ := f3 hC
    have hge : ¬ (b0 : Int) < 128 := by omega
    rw [if_neg (by omega : ¬ utf8.first.getD b0 0 ≥ 240), if_neg hge, g2, g3, g4]
    simp only [utf8.RuneError]
    clear f1 f2 f3 g1 g2 g3 g4 hs ht hb0 hk hn hn1
    rcases (by omega : b0 < 224 ∨ (224 ≤ b0 ∧ b0 < 240) ∨ 240 ≤ b0) with c2 | c3 | c4
    · have e1 : 192 ≤ b0 := by omega
      have e2 : ¬ b0 = 224 := by omega
      have e3 : ¬ b0 = 240 := by omega
      have e4 : ¬ b0 = 237 := by omega
      have e5 : ¬ b0 = 244 := by omega
      simp only [c2, e1, e2, e3, e4, e5, and_self, ↓reduceIte, Nat.le_refl]
      split_ifs <;> dsimp only <;> (refine ⟨Prod.ext ?_ ?_, ?_⟩ <;> dsimp only <;> omega)
    · have e1 : ¬ b0 < 224 := by omega
      have e3 : ¬ b0 = 240 := by omega
      have e5 : ¬ b0 = 244 := by omega
      have e6 : ¬ (3 ≤ 2) := by decide
      simp only [c3.1, c3.2, e1, e3, e5, e6, and_self, and_false, false_and, ↓reduceIte,
        Nat.le_refl]
      obtain ⟨lo, hlo, hlo1⟩ : ∃ lo, (if b0 = 224 then 160 else 128) = lo
          ∧ (b0 = 224 ∧ lo = 160 ∨ b0 ≠ 224 ∧ lo = 128) := by
        split_ifs with h <;> exact ⟨_, rfl, by omega⟩
      obtain ⟨hi, hhi, hhi1⟩ : ∃ hi, (if b0 = 237 then 159 else 191) = hi
          ∧ (b0 = 237 ∧ hi = 159 ∨ b0 ≠ 237 ∧ hi = 191) := by
        split_ifs with h <;> exact ⟨_, rfl, by omega⟩
      rw [hlo, hhi]
      split_ifs <;> dsimp only <;> (refine ⟨Prod.ext ?_ ?_, ?_⟩ <;> dsimp only <;> omega)
    · have e1 : ¬ b0 < 224 := by omega
      have e2 : ¬ b0 < 240 := by omega
      have e3 : ¬ b0 = 224 := by omega
      have e4 : ¬ b0 = 237 := by omega
      have e5 : ¬ (192 ≤ b0 ∧ b0 < 224) := by omega
      have e6 : ¬ (224 ≤ b0 ∧ b0 < 240) := by omega
      have e7 : (240 ≤ b0 ∧ b0 < 248) := by omega
      have e8 : ¬ (4 ≤ 2) := by decide
      have e9 : ¬ (4 ≤ 3) := by decide
      simp only [e1, e2, e3, e4, e5, e6, e7, e8, e9, and_self, and_false, false_and,
        ↓reduceIte]
      obtain ⟨lo, hlo, hlo1⟩ : ∃ lo, (if b0 = 240 then 144 else 128) = lo
          ∧ (b0 = 240 ∧ lo = 144 ∨ b0 ≠ 240 ∧ lo = 128) := by
        split_ifs with h <;> exact ⟨_, rfl, by omega⟩
      obtain ⟨hi, hhi, hhi1⟩ : ∃ hi, (if b0 = 244 then 143 else 191) = hi
          ∧ (b0 = 244 ∧ hi = 143 ∨ b0 ≠ 244 ∧ hi = 191) := by
        split_ifs with h <;> exact ⟨_, rfl, by omega⟩
      rw [hlo, hhi]
      split_ifs <;> dsimp only <;> (refine ⟨Prod.ext ?_ ?_, ?_⟩ <;> dsimp only <;> omega)

theorem loops_agree (s : List Nat) (hs : IsBytes s) (fuel i : Nat) (out : List (Int × Nat))
    (hf : s.length - i < fuel) :
    ∃ r, rangeLoop s fuel i out = some r ∧ decodeLoop s fuel i out = some r := by
  induction fuel generalizing i out with
  | zero => omega
  | succ fuel ih =>
    by_cases hi : i < s.length
    · obtain ⟨hd, hlt⟩ := decode_step s hs i hi
      rw [rangeLoop, decodeLoop, if_pos hi, if_pos hi, hd]
      dsimp only
      generalize (if ((byteAt s i : Nat) : Int) < runtime.runeSelf
        then (((byteAt s i : Nat) : Int), i + 1) else runtime.decoderune s i) = next at hlt ⊢
      have e : i + (next.2 - i) = next.2 := by omega
      rw [e]
      exact ih next.2 (out ++ [(next.1, i)]) (by omega)
    · rw [rangeLoop, decodeLoop, if_neg hi, if_neg hi]
      exact ⟨out, rfl, rfl⟩

/-- C4: for every string `s` (any byte sequence), the loop that starts at byte
offset 0, calls `utf8.DecodeRuneInString(s[i:])` and advances `i` by the returned
width terminates and prints the same sequence of (rune, starting byte offset)
pairs as the `range s` loop, given more than `len(s)` checks of the loop condition.
For the Thai constant (18 bytes) both print the six runes at offsets 0, 3, 6, 9,
12, 15. -/
theorem decode_loop_eq_range_loop (s : List Nat) (hs : IsBytes s) (fuel : Nat)
    (hf : s.length < fuel) :
    (∃ r, rangeLoop s fuel 0 [] = some r ∧ decodeLoop s fuel 0 [] = some r)
    ∧ (thai.length = 18
        ∧ rangeLoop thai 19 0 []
            = some [(0xE2A, 0), (0xE27, 3), (0xE31, 6), (0xE2A, 9), (0xE14, 12), (0xE35, 15)]
        ∧ decodeLoop thai 19 0 []
            = some [(0xE2A, 0), (0xE27, 3), (0xE31, 6), (0xE2A, 9), (0xE14, 12), (0xE35, 15)]) :=
  ⟨loops_agree s hs fuel 0 [] (by omega), by decide, by decide, by decide⟩

/-- Instance of C4 on the Thai constant of the example. -/
theorem decode_loop_eq_range_loop_witness :
    IsBytes thai ∧ thai.length < 19
    ∧ ∃ r, rangeLoop thai 19 0 [] = some r ∧ decodeLoop thai 19 0 [] = some r :=
  ⟨by decide, by decide, (decode_loop_eq_range_loop thai (by decide) 19 (by decide)).1⟩

end GoByExample
